import Mathlib

/-!
Verification of the settings-merge algorithm and derived logging-function
generator of the `cmr1-cli` helper class (`lib/cli.js`), via a shallow
embedding of the relevant JavaScript semantics.

JavaScript values are modelled by `JVal`: primitives carry their payload,
arrays are lists of values, and plain objects are insertion-ordered
association lists (matching `Object.keys` enumeration order for
string-keyed objects).  Property access on a missing key yields
`JVal.vUndef`, exactly as in JavaScript, so the source's `typeof` checks
translate directly.
-/

/-- A JavaScript value, as far as the settings machinery observes it.
Numbers are modelled as integers (the settings documents involved hold no
fractional numbers); functions never occur inside settings trees. -/
inductive JVal where
  | vStr (s : String)
  | vBool (b : Bool)
  | vNum (n : Int)
  | vNull
  | vUndef
  | vArr (elems : List JVal)
  | vObj (fields : List (String × JVal))

abbrev JFields := List (String × JVal)

/-- The JavaScript error values thrown by `lib/cli.js`: ordinary `Error`
objects with a message, plus the engine-raised `TypeError`s that some
inputs provoke. -/
inductive JsError where
  | err (msg : String)
  | typeErr (msg : String)
  deriving Repr, DecidableEq

/-- The JavaScript `typeof` operator on the modelled values
(`typeof null` is `"object"`, arrays are `"object"`). -/
def typeOf : JVal → String
  | .vStr _ => "string"
  | .vBool _ => "boolean"
  | .vNum _ => "number"
  | .vNull => "object"
  | .vUndef => "undefined"
  | .vArr _ => "object"
  | .vObj _ => "object"

/-- `Array.isArray`. -/
def isArray : JVal → Bool
  | .vArr _ => true
  | _ => false

/-- JavaScript truthiness of the modelled values (`NaN` does not arise in
the integer number model). -/
def truthy : JVal → Bool
  | .vStr s => s ≠ ""
  | .vBool b => b
  | .vNum n => n ≠ 0
  | .vNull => false
  | .vUndef => false
  | .vArr _ => true
  | .vObj _ => true

/-- Property read `obj[k]`: the first binding for `k`, or `undefined` when
the key is absent — matching JavaScript property access. -/
def getField : JFields → String → JVal
  | [], _ => .vUndef
  | (k', v') :: rest, k => if k' = k then v' else getField rest k

/-- Property write `obj[k] = v`: updates the existing binding in place
(keeping its enumeration position) or appends a new one, matching
JavaScript assignment's effect on `Object.keys` order. -/
def setField : JFields → String → JVal → JFields
  | [], k, v => [(k, v)]
  | (k', v') :: rest, k, v =>
      if k' = k then (k', v) :: rest else (k', v') :: setField rest k v

/-- The enumeration-ordered key list of an object. -/
def keysOf (l : JFields) : List String := l.map Prod.fst

/-- `Object.keys(x)` paired with the corresponding values: fields of a
plain object, index strings of an array, and `none` for `null`
(on which `Object.keys` raises a `TypeError`). -/
def keyVals : JVal → Option JFields
  | .vObj f => some f
  | .vArr es => some (es.enum.map (fun p => (toString p.1, p.2)))
  | _ => none

/-- Fields of a value when it is a plain object, else `[]` — the shape of
the `clone` fallback the `extend` module uses for non-plain-object
targets. -/
def objFieldsOf : JVal → JFields
  | .vObj f => f
  | _ => []

/-- Elements of a value when it is an array, else `[]`. -/
def arrElemsOf : JVal → List JVal
  | .vArr es => es
  | _ => []

/-!
Fuel bounds for the deep-extend recursion.  `jcost` dominates the number
of recursion steps `extend` performs while walking a copied value, so
running the fuelled functions at (or above) the cost of the copied value
computes the same result the unfuelled JavaScript recursion does.
-/

mutual

def jcost : JVal → Nat
  | .vObj fs => 1 + jcostFields fs
  | .vArr es => 1 + jcostElems es
  | _ => 0

def jcostFields : List (String × JVal) → Nat
  | [] => 0
  | (_, c) :: rest => 1 + max (jcost c) (jcostFields rest)

def jcostElems : List JVal → Nat
  | [] => 0
  | c :: rest => 1 + max (jcost c) (jcostElems rest)

end

/-!
Well-formed settings values: the shape every value built from JavaScript
object literals (and every JSON document) has — no `undefined`-valued
properties and no duplicate keys in one object.
-/

mutual

def wfJ : JVal → Bool
  | .vObj fs => nodupKeysB fs && wfFields fs
  | .vArr es => wfElems es
  | .vUndef => false
  | _ => true

def wfFields : List (String × JVal) → Bool
  | [] => true
  | (_, v) :: rest => wfJ v && wfFields rest

def wfElems : List JVal → Bool
  | [] => true
  | v :: rest => wfJ v && wfElems rest

def nodupKeysB : List (String × JVal) → Bool
  | [] => true
  | (k, _) :: rest => rest.all (fun p => p.1 ≠ k) && nodupKeysB rest

end

/-!
### The `extend` module (deep merge)

`extend(true, target, copy)`, the deep merge `mergeSettings` delegates to
for object-valued keys (the `extend` npm package, v3).  Per copied key:
a plain-object copy is merged recursively into the target's value at that
key (onto `{}` when that value is not a plain object); an array copy is
merged index-wise into the target's value (onto `[]` when that value is
not an array); `undefined` copies are skipped; any other copy is assigned
directly.  The reference-identity short-circuit (`target === copy`) is
omitted: it only matters for aliased inputs, which the value model does
not express.  Fuel only the copied value's size controls; every use below
supplies fuel at least `jcost` of the copy.
-/

mutual

def extendStep : Nat → JVal → JVal → JVal
  | 0, _, copy => copy
  | f + 1, src, .vObj cf => .vObj (extendFieldsStep f (objFieldsOf src) cf)
  | f + 1, src, .vArr ce => .vArr (extendElemsStep f (arrElemsOf src) ce)
  | _ + 1, src, .vUndef => src
  | _ + 1, _, copy => copy

def extendFieldsStep : Nat → JFields → JFields → JFields
  | 0, t, _ => t
  | _ + 1, t, [] => t
  | f + 1, t, (n, c) :: rest =>
      extendFieldsStep f
        (match c with
          | .vUndef => t
          | .vObj _ => setField t n (extendStep f (getField t n) c)
          | .vArr _ => setField t n (extendStep f (getField t n) c)
          | _ => setField t n c)
        rest

def extendElemsStep : Nat → List JVal → List JVal → List JVal
  | 0, t, _ => t
  | _ + 1, t, [] => t
  | f + 1, t, c :: rest =>
      (match c with
        | .vUndef => t.headD .vUndef
        | .vObj _ => extendStep f (t.headD .vUndef) c
        | .vArr _ => extendStep f (t.headD .vUndef) c
        | _ => c) :: extendElemsStep f t.tail rest

end

/-!
### `mergeSettings` (`lib/cli.js` lines 90–136)
-/

/-- The exact message of the `Error` thrown for an array/object shape
mismatch at key `k` (line 117 of `lib/cli.js`). -/
def mismatchMsg (k : String) : String :=
  "Cannot override setting: \x27" ++ k ++ "\x27 ... Type did not match!"

/-- The exact message of the `Error` thrown for a non-object settings
argument (line 134 of `lib/cli.js`). -/
def invalidSettingsMsg : String := "Invalid settings provided to merge function!"

/-- `this.settings[key] = extend(true, this.settings[key], val)` in the
both-non-array branch of `mergeSettings` (`d` and `val` both have
`typeof` `"object"` and neither is an array, so each is a plain object or
`null`).  `extend` replaces a `null`/non-object target by `{}` and skips
a `null` source entirely. -/
def extendCase (d v : JVal) : JVal :=
  match v with
  | .vObj cf => .vObj (extendFieldsStep (jcostFields cf) (objFieldsOf d) cf)
  | _ =>
      match d with
      | .vObj tf => .vObj tf
      | _ => .vObj []

/-- One iteration of the `Object.keys(settings).forEach` body of
`mergeSettings`: merge override value `v` for key `k` into the
accumulated settings.  Returns the new settings and the error thrown by
this iteration, if any. -/
def mergeKey (acc : JFields) (k : String) (v : JVal) : JFields × Option JsError :=
  let d := getField acc k
  if typeOf d = typeOf v then
    if typeOf v = "object" then
      if isArray d && isArray v then
        (setField acc k (.vArr (arrElemsOf d ++ arrElemsOf v)), none)
      else if !isArray d && !isArray v then
        (setField acc k (extendCase d v), none)
      else
        (acc, some (.err (mismatchMsg k)))
    else
      (setField acc k v, none)
  else if typeOf d = "undefined" then
    (setField acc k v, none)
  else
    (acc, none)

/-- The `forEach` loop of `mergeSettings` over the override's key/value
pairs; a thrown error aborts the loop, leaving the keys already merged
committed. -/
def mergeList (acc : JFields) : List (String × JVal) → JFields × Option JsError
  | [] => (acc, none)
  | (k, v) :: rest =>
      match mergeKey acc k v with
      | (acc', none) => mergeList acc' rest
      | (acc', some e) => (acc', some e)

/-- `mergeSettings(settings = {})` of `lib/cli.js` (line 90): `cur` is
`this.settings` on entry, `ov0` the caller-provided override value.
Returns the final `this.settings` together with the error that escaped,
if any.  The default parameter substitutes `{}` when the argument is
`undefined`, so an `undefined` override merges nothing and raises no
error.  Note that the guard is JavaScript's `typeof ov === 'object'`,
which admits arrays and `null`; `Object.keys(null)` then raises a
`TypeError`. -/
def mergeSettings (cur : JFields) (ov0 : JVal) : JFields × Option JsError :=
  let ov := match ov0 with
    | .vUndef => .vObj []
    | v => v
  if typeOf ov = "object" then
    match keyVals ov with
    | some kvs => mergeList cur kvs
    | none => (cur, some (.typeErr "Cannot convert undefined or null to object"))
  else
    (cur, some (.err invalidSettingsMsg))

/-!
### Specification-side merge combinators

Two further combine functions, written from the specification's words
rather than from the source, to compare the code's deep merge against.
They use the specification's shape taxonomy (scalar / ordered sequence /
mapping) and the same fuel discipline as `extendStep`, so equality
statements can be made at matching fuel.
-/

/-- The specification's tagged-union view of a value's shape. -/
inductive JShape where
  | scalar
  | seq
  | mapping

def shapeOf : JVal → JShape
  | .vObj _ => .mapping
  | .vArr _ => .seq
  | _ => .scalar

mutual

/-- Modelled from the spec: the claim's original deep-combine rule for two
mapping values — keys only in the default preserved, keys only in the
override added, keys in both merged by this same rule, and the override
value winning outright at every leaf (any pair that is not two
mappings). -/
def claimCombineStep : Nat → JVal → JVal → JVal
  | 0, _, o => o
  | f + 1, d, o =>
      match shapeOf d, shapeOf o with
      | .mapping, .mapping => .vObj (claimCombineFields f (objFieldsOf d) (objFieldsOf o))
      | _, _ => o

def claimCombineFields : Nat → JFields → JFields → JFields
  | 0, t, _ => t
  | _ + 1, t, [] => t
  | f + 1, t, (n, c) :: rest =>
      claimCombineFields f (setField t n (claimCombineStep f (getField t n) c)) rest

end

/-- The claim's deep combine at self-sizing fuel. -/
def claimDeepCombine (d o : JVal) : JVal := claimCombineStep (jcost o) d o

mutual

/-- Modelled from the spec as amended: deep combine of two values —
two mappings combine key-wise (default-only keys preserved, override-only
keys added, shared keys combined by this same rule); two ordered
sequences combine element-wise by index (the override's element combining
with the default's element at the same index, longer default tails
preserved); in every other pairing the override value wins outright. -/
def specCombineStep : Nat → JVal → JVal → JVal
  | 0, _, o => o
  | f + 1, d, o =>
      match shapeOf d, shapeOf o with
      | .mapping, .mapping => .vObj (specCombineFields f (objFieldsOf d) (objFieldsOf o))
      | .seq, .seq => .vArr (specCombineElems f (arrElemsOf d) (arrElemsOf o))
      | _, _ => o

def specCombineFields : Nat → JFields → JFields → JFields
  | 0, t, _ => t
  | _ + 1, t, [] => t
  | f + 1, t, (n, c) :: rest =>
      specCombineFields f (setField t n (specCombineStep f (getField t n) c)) rest

def specCombineElems : Nat → List JVal → List JVal → List JVal
  | 0, t, _ => t
  | _ + 1, t, [] => t
  | f + 1, t, c :: rest =>
      specCombineStep f (t.headD .vUndef) c :: specCombineElems f t.tail rest

end

/-- The amended spec's deep combine at self-sizing fuel. -/
def specDeepCombine (d o : JVal) : JVal := specCombineStep (jcost o) d o

/-!
### The log factory (`enableLogging`, `lib/cli.js` lines 141–202) and the
generated logging methods (lines 158–199)

The external `colors/safe` collaborator is abstracted: `colorNames` lists
the function-valued properties of the colors object (its recognised color
and style names), and `applyColor` stands for the terminal escape-code
wrapping, modelled as an injective tagging (the spec treats the color-code
application as an external collaborator, out of scope).
-/

/-- Function-valued properties of the `colors/safe` module: colors,
background colors, text styles and the extra mappers. -/
def colorNames : List String :=
  ["black", "red", "green", "yellow", "blue", "magenta", "cyan", "white",
   "gray", "grey", "brightRed", "brightGreen", "brightYellow", "brightBlue",
   "brightMagenta", "brightCyan", "brightWhite",
   "bgBlack", "bgRed", "bgGreen", "bgYellow", "bgBlue", "bgMagenta",
   "bgCyan", "bgWhite",
   "reset", "bold", "dim", "italic", "underline", "inverse", "hidden",
   "strikethrough",
   "rainbow", "zebra", "america", "trap", "random"]

/-- Abstraction of `colors[c](s)`: the string `s` wrapped in the color
`c`'s terminal codes, modelled as an injective tagging. -/
def applyColor (c s : String) : String := "<" ++ c ++ ">" ++ s ++ "</" ++ c ++ ">"

/-- A whitespace character, as `String.prototype.trim` removes them. -/
def isWsChar (c : Char) : Bool :=
  c = ' ' || c = '\t' || c = '\n' || c = '\r' || c = '\x0b' || c = '\x0c'

/-- `s.trim() === ''`: the string has no non-whitespace character.  The
source only ever compares a trimmed string against the empty string, so
blankness is all of `trim` the model needs. -/
def isBlankStr (s : String) : Bool := s.toList.all isWsChar

/-- `Cli.colorize(args, color)` on an argument list (lines 264–303):
a no-op unless `color` is non-blank and names a colors function, otherwise
every string element is colorized in place and every other element is
left untouched (one level deep). -/
def colorizeList (args : List JVal) (c : String) : List JVal :=
  if !isBlankStr c && colorNames.contains c then
    args.map (fun a =>
      match a with
      | .vStr s => .vStr (applyColor c s)
      | _ => a)
  else args

/-- Own and prototype function properties of the `console` object that the
`typeof console[method] === 'function'` check at line 168 can find. -/
def consoleMethods : List String :=
  ["log", "error", "warn", "info", "debug", "trace", "dir", "table",
   "group", "groupCollapsed", "groupEnd", "time", "timeEnd", "timeLog",
   "count", "countReset", "assert", "clear"]

/-- JavaScript `x === true`. -/
def isTrueJ : JVal → Bool
  | .vBool true => true
  | _ => false

/-- The observable effect of one call of a generated logging method. -/
structure LogResult where
  /-- The console channel the output goes to (named after the method, with
  fallback to `"log"`). -/
  channel : String
  /-- The argument sequence dispatched to the console method, or `none`
  when the visibility gate suppressed the call. -/
  output : Option (List JVal)
  /-- The payload of the `Error` thrown after output (line 196), if any. -/
  thrown : Option (List JVal)

/-- Line 174: the color actually used, `methodConfig.color` when it names
a colors function, else blank.  The spec types `LogMethodConfig.color` as
an optional string; a non-string color value is modelled as naming no
color (JavaScript would coerce composite values to a property key, a
corner the settings shape rules out). -/
def cfgColor (cfg : JFields) : String :=
  match getField cfg "color" with
  | .vStr s => if colorNames.contains s then s else ""
  | _ => ""

/-- One invocation of the method generated at lines 158–199 of
`lib/cli.js`.  `cfg` is the method's entry in `settings.logging`,
`settings` and `options` are the host's state at call time, `args` the
variadic argument list, `ts` the string `this.getTimeStamp()` returns at
this moment (current local date and time, external to the core).  Note
that `Cli.colorize(args, color)` at line 177 colorizes the string elements
of `args` in place, so the `Error` thrown at line 196 carries the
colorized argument array. -/
def logCall (method : String) (cfg : JFields) (settings : JFields)
    (options : JFields) (args : List JVal) (ts : String) : LogResult :=
  let channel := if consoleMethods.contains method then method else "log"
  if (!truthy (getField cfg "verbose") || truthy (getField options "verbose"))
      && !truthy (getField options "quiet") then
    let pfx :=
      match getField cfg "prefix" with
      | .vStr s => s
      | _ => ""
    let col := cfgColor cfg
    let out0 := colorizeList args col
    let out1 := if !isBlankStr pfx then colorizeList [.vStr pfx] col ++ out0 else out0
    let out2 :=
      if truthy (getField cfg "stamp") then
        colorizeList [.vStr ("[" ++ ts ++ "]")] col ++ out1
      else out1
    let thr :=
      if isTrueJ (getField cfg "throws")
          && !(truthy (getField settings "allowForceNoThrow")
                && truthy (getField options "force")) then
        some out0
      else none
    { channel := channel, output := some out2, thrown := thr }
  else
    { channel := channel, output := none, thrown := none }

/-- The exact message of the `Error` thrown at line 154 of `lib/cli.js`
when a logging method name collides with an existing property. -/
def collisionMsg (m : String) : String :=
  "Cannot override method for logging: \x27" ++ m ++ "\x27 ... it already exists!"

/-- The property names already defined on a `Cli` instance when
`enableLogging` starts: the own properties the constructor assigned
before it (lines 33–39) plus the `Cli.prototype` methods, all visible to
the `typeof this[method] !== 'undefined'` check at line 153.  Static
members (`colorize`, `DEFAULT_SETTINGS`) live on the class, not the
instance. -/
def hostProps0 : List String :=
  ["options", "settings", "select", "prompt", "confirm",
   "constructor", "mergeSettings", "enableLogging", "setOptions",
   "getOptions", "getHelpSections", "getTimeStamp", "showHelp"]

/-- The `forEach` loop of `enableLogging` (lines 147–200): walk the
logging config entries in enumeration order; for each, fail if the name
is already a property of the host, else define the method (extending the
host's property list).  Returns the host's property list when the loop
stops, plus the error thrown, if any. -/
def enableLoggingList (props : List String) : JFields → List String × Option JsError
  | [] => (props, none)
  | (m, _) :: rest =>
      if props.contains m then (props, some (.err (collisionMsg m)))
      else enableLoggingList (props ++ [m]) rest

/-- `enableLogging()` (lines 141–202): a no-op unless
`typeof this.settings.logging === 'object'`; a `null` logging value passes
that check and makes `Object.keys` raise a `TypeError`. -/
def enableLogging (props : List String) (logging : JVal) : List String × Option JsError :=
  if typeOf logging = "object" then
    match keyVals logging with
    | some kvs => enableLoggingList props kvs
    | none => (props, some (.typeErr "Cannot convert undefined or null to object"))
  else
    (props, none)

/-!
### The constructor (`lib/cli.js` lines 27–84)

`construct` models a `new Cli(overrides)` run.  Arguments external to the
core are parameters: `parse` models the `command-line-args` collaborator
applied to `settings.optionDefinitions`, `ts` the timestamp source.  The
usage-rendering of `showHelp` is external; its observable effect is
`process.exit(0)`.
-/

/-- How a construction run ends. -/
inductive ConOutcome where
  /-- `showHelp()` ran: usage printed and `process.exit(code)` called. -/
  | exited (code : Nat)
  /-- An exception escaped the constructor uncaught (the caller of
  `new Cli(...)` sees it). -/
  | crashed (msg : String)
  /-- Construction returned normally with this options bag. -/
  | completed (options : JFields)

/-- Observable result of a construction run: the argument sequences
emitted through the logging/console facilities of the catch path, and how
the run ended. -/
structure ConResult where
  reported : List (List JVal)
  outcome : ConOutcome

/-- `e.message` — every error `lib/cli.js` itself throws, and the engine
`TypeError`s modelled here, carry a string message, so the catch block's
message/name/raw fallback chain (lines 61–71) always takes the message
branch. -/
def errText : JsError → String
  | .err m => m
  | .typeErr m => m

/-- The caught error as the value passed on to `this.debug` (line 74). -/
def errVal : JsError → JVal
  | .err m => .vObj [("message", .vStr m)]
  | .typeErr m => .vObj [("message", .vStr m), ("name", .vStr "TypeError")]

/-- The `settings.logging[m]` config fields for a generated method `m`. -/
def loggingCfgOf (settings : JFields) (m : String) : JFields :=
  objFieldsOf (getField (objFieldsOf (getField settings "logging")) m)

/-- The tail of the catch block after the logger reported the message:
`this.debug('Caught Error:', e)` at line 74 — a `TypeError` escapes when
no `debug` method was generated — then `this.showHelp()` at line 77. -/
def afterReport (settings : JFields) (generated : List String) (opts : JFields)
    (rep : List (List JVal)) (e : JsError) (ts : String) : ConResult :=
  if generated.contains "debug" then
    let r := logCall "debug" (loggingCfgOf settings "debug") settings opts
        [.vStr "Caught Error:", errVal e] ts
    match r.thrown with
    | some _ => { reported := rep ++ r.output.toList, outcome := .crashed "Error" }
    | none => { reported := rep ++ r.output.toList, outcome := .exited 0 }
  else
    { reported := rep, outcome := .crashed "TypeError: this.debug is not a function" }

/-- The catch block of the constructor (lines 51–78): set
`this.options.force = true`, report the error's message through
`this.error` when that method was generated, else through
`console.error`, then run the catch tail. -/
def runCatch (settings : JFields) (generated : List String) (options0 : JFields)
    (e : JsError) (ts : String) : ConResult :=
  let opts := setField options0 "force" (.vBool true)
  let msg := errText e
  if generated.contains "error" then
    let r := logCall "error" (loggingCfgOf settings "error") settings opts [.vStr msg] ts
    match r.thrown with
    | some _ => { reported := r.output.toList, outcome := .crashed "Error" }
    | none => afterReport settings generated opts r.output.toList e ts
  else
    afterReport settings generated opts [[.vStr msg]] e ts

/-- `new Cli(overrides)` (lines 27–84): initialize `this.options = {}` and
`this.settings` as a copy of the defaults, merge the overrides, enable
logging, parse options, handling any thrown error in the catch block; on
normal completion show help (and exit 0) when `options.help` is truthy.
Aliasing between the settings copy and the shared defaults is a heap
phenomenon treated by the heap model below; this value-level run tracks
the constructor's control flow. -/
def construct (defaults : JFields) (overrides : JVal)
    (parse : JVal → Except JsError JFields) (ts : String) : ConResult :=
  match mergeSettings defaults overrides with
  | (s1, some e) => runCatch s1 [] [] e ts
  | (s1, none) =>
      match enableLogging hostProps0 (getField s1 "logging") with
      | (props, some e) => runCatch s1 (props.drop hostProps0.length) [] e ts
      | (props, none) =>
          match parse (getField s1 "optionDefinitions") with
          | .error e => runCatch s1 (props.drop hostProps0.length) [] e ts
          | .ok opts =>
              if truthy (getField opts "help") then
                { reported := [], outcome := .exited 0 }
              else
                { reported := [], outcome := .completed opts }

/-!
### Heap model of the settings copy

`this.settings = Object.assign({}, Cli.DEFAULT_SETTINGS)` (line 34) copies
only the top level of the shared default settings document (`require`
caches `settings.json`, so every construction in a process reads the same
object), and `extend(true, this.settings[key], val)` (line 113) mutates
the object `this.settings[key]` refers to in place.  To express what is
shared and what is mutated, this second model gives plain objects
identities: an `HVal` object value is an address into a store, and the
merge threads the store.  Arrays are kept by value (`mergeSettings` only
ever builds fresh arrays with `concat`, and the JSON defaults document
has no internal aliasing), and overrides are supplied as fresh literal
trees (`JVal`), matching a caller-written object literal.
-/

/-- A heap-aware JavaScript value: as `JVal`, but a plain object is a
reference into the store. -/
inductive HVal where
  | hStr (s : String)
  | hBool (b : Bool)
  | hNum (n : Int)
  | hNull
  | hUndef
  | hArr (elems : List HVal)
  | hRef (a : Nat)

abbrev HFields := List (String × HVal)

/-- The store: object number `a` holds field list `σ.getD a []`. -/
abbrev Store := List HFields

def storeGet (σ : Store) (a : Nat) : HFields := σ.getD a []

def storeSet (σ : Store) (a : Nat) (f : HFields) : Store := σ.set a f

/-- Allocate a fresh object holding `f`; returns the new store and the
fresh address. -/
def allocObj (σ : Store) (f : HFields) : Store × Nat := (σ ++ [f], σ.length)

def getFieldH : HFields → String → HVal
  | [], _ => .hUndef
  | (k', v') :: rest, k => if k' = k then v' else getFieldH rest k

def setFieldH : HFields → String → HVal → HFields
  | [], k, v => [(k, v)]
  | (k', v') :: rest, k, v =>
      if k' = k then (k', v) :: rest else (k', v') :: setFieldH rest k v

def typeOfH : HVal → String
  | .hStr _ => "string"
  | .hBool _ => "boolean"
  | .hNum _ => "number"
  | .hNull => "object"
  | .hUndef => "undefined"
  | .hArr _ => "object"
  | .hRef _ => "object"

def isArrayH : HVal → Bool
  | .hArr _ => true
  | _ => false

/-- A primitive (or `null`) literal as a heap value; object and array
literals go through `hOfJ` instead. -/
def hOfPrim : JVal → HVal
  | .vStr s => .hStr s
  | .vBool b => .hBool b
  | .vNum n => .hNum n
  | .vNull => .hNull
  | _ => .hUndef

def arrElemsOfH : HVal → List HVal
  | .hArr es => es
  | _ => []

mutual

/-- Heap-allocate a fresh literal value: objects become fresh store
entries, everything else is kept by value. -/
def hOfJ : Nat → Store → JVal → Store × HVal
  | _, σ, .vStr s => (σ, .hStr s)
  | _, σ, .vBool b => (σ, .hBool b)
  | _, σ, .vNum n => (σ, .hNum n)
  | _, σ, .vNull => (σ, .hNull)
  | _, σ, .vUndef => (σ, .hUndef)
  | 0, σ, .vArr _ => (σ, .hUndef)
  | 0, σ, .vObj _ => (σ, .hUndef)
  | f + 1, σ, .vArr es =>
      let (σ', es') := hOfJElems f σ es
      (σ', .hArr es')
  | f + 1, σ, .vObj fs =>
      let (σ1, b) := allocObj σ []
      (hOfJFields f σ1 b fs, .hRef b)

def hOfJFields : Nat → Store → Nat → List (String × JVal) → Store
  | 0, σ, _, _ => σ
  | _ + 1, σ, _, [] => σ
  | f + 1, σ, a, (n, c) :: rest =>
      let (σ1, v) := hOfJ f σ c
      hOfJFields f (storeSet σ1 a (setFieldH (storeGet σ1 a) n v)) a rest

def hOfJElems : Nat → Store → List JVal → Store × List HVal
  | 0, σ, _ => (σ, [])
  | _ + 1, σ, [] => (σ, [])
  | f + 1, σ, c :: rest =>
      let (σ1, v) := hOfJ f σ c
      let (σ2, vs) := hOfJElems f σ1 rest
      (σ2, v :: vs)

end

mutual

/-- `extend(deep, clone, copy)` computing the value assigned to a target
slot whose current value is `src`: a plain-object copy is merged in place
when `src` is an object reference (and onto a fresh empty object
otherwise); an array copy is merged index-wise by value; other copies are
taken as literals. -/
def extendMutVal : Nat → Store → HVal → JVal → Store × HVal
  | 0, σ, src, _ => (σ, src)
  | f + 1, σ, src, .vObj cf =>
      match src with
      | .hRef b => (extendMutFields f σ b cf, .hRef b)
      | _ =>
          let (σ1, b) := allocObj σ []
          (extendMutFields f σ1 b cf, .hRef b)
  | f + 1, σ, src, .vArr ce =>
      let (σ', es') := extendMutElems f σ (arrElemsOfH src) ce
      (σ', .hArr es')
  | _ + 1, σ, src, .vUndef => (σ, src)
  | _ + 1, σ, _, c => (σ, hOfPrim c)

/-- The per-key loop of a deep `extend` into the object at address `a`. -/
def extendMutFields : Nat → Store → Nat → List (String × JVal) → Store
  | 0, σ, _, _ => σ
  | _ + 1, σ, _, [] => σ
  | f + 1, σ, a, (n, c) :: rest =>
      let σ' :=
        match c with
        | .vUndef => σ
        | .vObj _ =>
            let (σ1, v) := extendMutVal f σ (getFieldH (storeGet σ a) n) c
            storeSet σ1 a (setFieldH (storeGet σ1 a) n v)
        | .vArr _ =>
            let (σ1, v) := extendMutVal f σ (getFieldH (storeGet σ a) n) c
            storeSet σ1 a (setFieldH (storeGet σ1 a) n v)
        | _ => storeSet σ a (setFieldH (storeGet σ a) n (hOfPrim c))
      extendMutFields f σ' a rest

def extendMutElems : Nat → Store → List HVal → List JVal → Store × List HVal
  | 0, σ, te, _ => (σ, te)
  | _ + 1, σ, te, [] => (σ, te)
  | f + 1, σ, te, c :: rest =>
      match c with
      | .vUndef =>
          let (σ', tl) := extendMutElems f σ te.tail rest
          (σ', te.headD .hUndef :: tl)
      | .vObj _ =>
          let (σ1, v) := extendMutVal f σ (te.headD .hUndef) c
          let (σ2, tl) := extendMutElems f σ1 te.tail rest
          (σ2, v :: tl)
      | .vArr _ =>
          let (σ1, v) := extendMutVal f σ (te.headD .hUndef) c
          let (σ2, tl) := extendMutElems f σ1 te.tail rest
          (σ2, v :: tl)
      | _ =>
          let (σ', tl) := extendMutElems f σ te.tail rest
          (σ', hOfPrim c :: tl)

end

/-- One iteration of the `mergeSettings` loop on the heap: merge override
value `v` for key `k` into the settings object at address `a`. -/
def mergeKeyH (σ : Store) (a : Nat) (k : String) (v : JVal) : Store × Option JsError :=
  let d := getFieldH (storeGet σ a) k
  if typeOfH d = typeOf v then
    if typeOf v = "object" then
      if isArrayH d && isArray v then
        let (σ1, w) := hOfJ (jcost v) σ (.vArr (arrElemsOf v))
        (storeSet σ1 a (setFieldH (storeGet σ1 a) k
          (.hArr (arrElemsOfH d ++ arrElemsOfH w))), none)
      else if !isArrayH d && !isArray v then
        match d, v with
        | .hRef b, .vObj cf =>
            (extendMutFields (jcostFields cf) σ b cf, none)
        | _, .vObj cf =>
            let (σ1, b) := allocObj σ []
            let σ2 := extendMutFields (jcostFields cf) σ1 b cf
            (storeSet σ2 a (setFieldH (storeGet σ2 a) k (.hRef b)), none)
        | .hRef _, _ => (σ, none)
        | _, _ =>
            let (σ1, b) := allocObj σ []
            (storeSet σ1 a (setFieldH (storeGet σ1 a) k (.hRef b)), none)
      else
        (σ, some (.err (mismatchMsg k)))
    else
      let (σ1, w) := hOfJ (jcost v) σ v
      (storeSet σ1 a (setFieldH (storeGet σ1 a) k w), none)
  else if typeOfH d = "undefined" then
    let (σ1, w) := hOfJ (jcost v) σ v
    (storeSet σ1 a (setFieldH (storeGet σ1 a) k w), none)
  else
    (σ, none)

/-- The `forEach` loop of `mergeSettings` on the heap. -/
def mergeListH (σ : Store) (a : Nat) : List (String × JVal) → Store × Option JsError
  | [] => (σ, none)
  | (k, v) :: rest =>
      match mergeKeyH σ a k v with
      | (σ', none) => mergeListH σ' a rest
      | (σ', some e) => (σ', some e)

/-- `mergeSettings(overrides = {})` on the heap, merging into the
settings object at address `a`; as in the value model, the default
parameter substitutes `{}` for an `undefined` argument. -/
def mergeSettingsH (σ : Store) (a : Nat) (ov0 : JVal) : Store × Option JsError :=
  let ov := match ov0 with
    | .vUndef => .vObj []
    | v => v
  if typeOf ov = "object" then
    match keyVals ov with
    | some kvs => mergeListH σ a kvs
    | none => (σ, some (.typeErr "Cannot convert undefined or null to object"))
  else
    (σ, some (.err invalidSettingsMsg))

/-- Lines 34 and 42 of the constructor on the heap:
`this.settings = Object.assign({}, Cli.DEFAULT_SETTINGS)` — a fresh
object carrying the same top-level bindings, nested references shared —
followed by `this.mergeSettings(overrides)`.  `dflt` is the address of
the cached `settings.json` document. -/
def constructSettingsH (σ : Store) (dflt : Nat) (ov : JVal) : Store × Nat × Option JsError :=
  let (σ1, s) := allocObj σ (storeGet σ dflt)
  let (σ2, e) := mergeSettingsH σ1 s ov
  (σ2, s, e)

/-!
### Basic lemmas about the association-list object model
-/

theorem getField_setField_self (l : JFields) (k : String) (v : JVal) :
    getField (setField l k v) k = v := by
  induction l with
  | nil => simp [setField, getField]
  | cons p rest ih =>
      obtain ⟨k', v'⟩ := p
      by_cases h : k' = k
      · simp [setField, getField, h]
      · simp [setField, getField, h, ih]

theorem getField_setField_ne (l : JFields) (k k' : String) (v : JVal)
    (hne : k ≠ k') : getField (setField l k v) k' = getField l k' := by
  induction l with
  | nil => simp [setField, getField, hne]
  | cons p rest ih =>
      obtain ⟨k0, v0⟩ := p
      by_cases h : k0 = k
      · subst h
        simp [setField, getField, hne]
      · simp only [setField, if_neg h]
        by_cases h' : k0 = k'
        · simp [getField, h']
        · simp [getField, h', ih]

theorem getField_of_notMem (l : JFields) (k : String) (h : k ∉ keysOf l) :
    getField l k = .vUndef := by
  induction l with
  | nil => rfl
  | cons p rest ih =>
      obtain ⟨k0, v0⟩ := p
      simp only [keysOf, List.map_cons, List.mem_cons] at h
      push_neg at h
      have hne : ¬(k0 = k) := fun he => h.1 he.symm
      simp [getField, hne, ih (by simpa [keysOf] using h.2)]

theorem setField_of_notMem (l : JFields) (k : String) (v : JVal)
    (h : k ∉ keysOf l) : setField l k v = l ++ [(k, v)] := by
  induction l with
  | nil => rfl
  | cons p rest ih =>
      obtain ⟨k0, v0⟩ := p
      simp only [keysOf, List.map_cons, List.mem_cons] at h
      push_neg at h
      have hne : ¬(k0 = k) := fun he => h.1 he.symm
      simp [setField, hne, ih (by simpa [keysOf] using h.2)]

/-!
### Decomposition lemmas for the merge loop
-/

theorem mergeList_append (acc : JFields) (l1 l2 : List (String × JVal)) :
    mergeList acc (l1 ++ l2) =
      match mergeList acc l1 with
      | (a, none) => mergeList a l2
      | (a, some e) => (a, some e) := by
  induction l1 generalizing acc with
  | nil => simp [mergeList]
  | cons p rest ih =>
      obtain ⟨k, v⟩ := p
      simp only [List.cons_append, mergeList]
      cases h : mergeKey acc k v with
      | mk a oe => cases oe <;> simp [ih]

theorem mergeKey_keeps (acc : JFields) (k : String) (v : JVal) (k' : String)
    (hne : k ≠ k') : getField (mergeKey acc k v).1 k' = getField acc k' := by
  have hs : ∀ w, getField (setField acc k w) k' = getField acc k' :=
    fun w => getField_setField_ne acc k k' w hne
  unfold mergeKey
  by_cases h1 : typeOf (getField acc k) = typeOf v
  · rw [if_pos h1]
    by_cases h2 : typeOf v = "object"
    · rw [if_pos h2]
      by_cases h3 : (isArray (getField acc k) && isArray v) = true
      · rw [if_pos h3]
        exact hs _
      · rw [if_neg h3]
        by_cases h4 : (!isArray (getField acc k) && !isArray v) = true
        · rw [if_pos h4]
          exact hs _
        · rw [if_neg h4]
    · rw [if_neg h2]
      exact hs _
  · rw [if_neg h1]
    by_cases h5 : typeOf (getField acc k) = "undefined"
    · rw [if_pos h5]
      exact hs _
    · rw [if_neg h5]

theorem mergeList_keeps (l : List (String × JVal)) (acc : JFields) (k : String)
    (h : k ∉ keysOf l) : getField (mergeList acc l).1 k = getField acc k := by
  induction l generalizing acc with
  | nil => rfl
  | cons p rest ih =>
      obtain ⟨k0, v0⟩ := p
      simp only [keysOf, List.map_cons, List.mem_cons] at h
      push_neg at h
      have hne : k0 ≠ k := fun he => h.1 he.symm
      simp only [mergeList]
      cases hm : mergeKey acc k0 v0 with
      | mk a oe =>
          have hkeep : getField a k = getField acc k := by
            have := mergeKey_keeps acc k0 v0 k hne
            rw [hm] at this
            exact this
          cases oe with
          | none => simpa [hkeep] using ih a (by simpa [keysOf] using h.2)
          | some e => simpa using hkeep

/-!
### The code's deep extend realises the amended combine rule

`specExtendPack` packages the mutual induction over fuel: on well-formed
override values (no `undefined` members, no duplicate keys) and with
enough fuel, the spec-side combine equals the code-side `extend` walk;
the last three components are the auxiliary facts the induction needs
(extending an object with disjoint keys appends them, extending an empty
target copies the override, deep-copying onto `undefined` is the
identity).
-/

theorem specCombineStep_scalar (f : Nat) (d o : JVal) (ho : shapeOf o = .scalar) :
    specCombineStep f d o = o := by
  cases f with
  | zero => rfl
  | succ g => cases d <;> cases o <;> simp_all [specCombineStep, shapeOf]

theorem specExtendPack : ∀ f : Nat,
    (∀ d o, wfJ o = true → jcost o ≤ f → specCombineStep f d o = extendStep f d o)
  ∧ (∀ t o, wfFields o = true → jcostFields o ≤ f →
        specCombineFields f t o = extendFieldsStep f t o)
  ∧ (∀ t o, wfElems o = true → jcostElems o ≤ f →
        specCombineElems f t o = extendElemsStep f t o)
  ∧ (∀ t o, nodupKeysB o = true → wfFields o = true → jcostFields o ≤ f →
        (∀ x ∈ keysOf o, x ∉ keysOf t) → extendFieldsStep f t o = t ++ o)
  ∧ (∀ o, wfElems o = true → jcostElems o ≤ f → extendElemsStep f [] o = o)
  ∧ (∀ c, wfJ c = true → jcost c ≤ f → extendStep f .vUndef c = c) := by
  intro f
  induction f with
  | zero =>
      refine ⟨fun d o _ _ => rfl, fun t o _ _ => rfl, fun t o _ _ => rfl,
        ?_, ?_, fun c _ _ => rfl⟩
      · intro t o _ _ hc _
        cases o with
        | nil => simp [extendFieldsStep]
        | cons p rest => simp [jcostFields] at hc
      · intro o _ hc
        cases o with
        | nil => rfl
        | cons c rest => simp [jcostElems] at hc
  | succ g ih =>
      obtain ⟨ihA, ihB, ihC, ihD, ihE, ihG⟩ := ih
      have hA : ∀ d o, wfJ o = true → jcost o ≤ g + 1 →
          specCombineStep (g + 1) d o = extendStep (g + 1) d o := by
        intro d o hwf hc
        cases o with
        | vStr s => cases d <;> simp [specCombineStep, extendStep, shapeOf]
        | vBool b => cases d <;> simp [specCombineStep, extendStep, shapeOf]
        | vNum n => cases d <;> simp [specCombineStep, extendStep, shapeOf]
        | vNull => cases d <;> simp [specCombineStep, extendStep, shapeOf]
        | vUndef => simp [wfJ] at hwf
        | vObj cf =>
            have hnd : nodupKeysB cf = true ∧ wfFields cf = true := by
              simpa [wfJ, Bool.and_eq_true] using hwf
            have hcf : jcostFields cf ≤ g := by
              simp [jcost] at hc
              omega
            cases d with
            | vObj tf =>
                simp [specCombineStep, extendStep, shapeOf, objFieldsOf]
                exact ihB tf cf hnd.2 hcf
            | vStr s =>
                simp [specCombineStep, extendStep, shapeOf, objFieldsOf]
                simpa using (ihD [] cf hnd.1 hnd.2 hcf (by simp [keysOf])).symm
            | vBool b =>
                simp [specCombineStep, extendStep, shapeOf, objFieldsOf]
                simpa using (ihD [] cf hnd.1 hnd.2 hcf (by simp [keysOf])).symm
            | vNum n =>
                simp [specCombineStep, extendStep, shapeOf, objFieldsOf]
                simpa using (ihD [] cf hnd.1 hnd.2 hcf (by simp [keysOf])).symm
            | vNull =>
                simp [specCombineStep, extendStep, shapeOf, objFieldsOf]
                simpa using (ihD [] cf hnd.1 hnd.2 hcf (by simp [keysOf])).symm
            | vUndef =>
                simp [specCombineStep, extendStep, shapeOf, objFieldsOf]
                simpa using (ihD [] cf hnd.1 hnd.2 hcf (by simp [keysOf])).symm
            | vArr te =>
                simp [specCombineStep, extendStep, shapeOf, objFieldsOf]
                simpa using (ihD [] cf hnd.1 hnd.2 hcf (by simp [keysOf])).symm
        | vArr ce =>
            have hwe : wfElems ce = true := by simpa [wfJ] using hwf
            have hce : jcostElems ce ≤ g := by
              simp [jcost] at hc
              omega
            cases d with
            | vArr te =>
                simp [specCombineStep, extendStep, shapeOf, arrElemsOf]
                exact ihC te ce hwe hce
            | vStr s =>
                simp [specCombineStep, extendStep, shapeOf, arrElemsOf]
                simpa using (ihE ce hwe hce).symm
            | vBool b =>
                simp [specCombineStep, extendStep, shapeOf, arrElemsOf]
                simpa using (ihE ce hwe hce).symm
            | vNum n =>
                simp [specCombineStep, extendStep, shapeOf, arrElemsOf]
                simpa using (ihE ce hwe hce).symm
            | vNull =>
                simp [specCombineStep, extendStep, shapeOf, arrElemsOf]
                simpa using (ihE ce hwe hce).symm
            | vUndef =>
                simp [specCombineStep, extendStep, shapeOf, arrElemsOf]
                simpa using (ihE ce hwe hce).symm
            | vObj tf =>
                simp [specCombineStep, extendStep, shapeOf, arrElemsOf]
                simpa using (ihE ce hwe hce).symm
      refine ⟨hA, ?_, ?_, ?_, ?_, ?_⟩
      · intro t o hwf hc
        cases o with
        | nil => rfl
        | cons p rest =>
            obtain ⟨n, c⟩ := p
            have hw : wfJ c = true ∧ wfFields rest = true := by
              simpa [wfFields, Bool.and_eq_true] using hwf
            have hb : jcost c ≤ g ∧ jcostFields rest ≤ g := by
              simp [jcostFields] at hc
              omega
            cases c with
            | vUndef => exact absurd hw.1 (by simp [wfJ])
            | vObj cf =>
                simp only [specCombineFields, extendFieldsStep]
                rw [ihA (getField t n) (JVal.vObj cf) hw.1 hb.1]
                exact ihB _ rest hw.2 hb.2
            | vArr ce =>
                simp only [specCombineFields, extendFieldsStep]
                rw [ihA (getField t n) (JVal.vArr ce) hw.1 hb.1]
                exact ihB _ rest hw.2 hb.2
            | vStr s =>
                simp only [specCombineFields, extendFieldsStep]
                rw [specCombineStep_scalar g (getField t n) (JVal.vStr s) rfl]
                exact ihB _ rest hw.2 hb.2
            | vBool b =>
                simp only [specCombineFields, extendFieldsStep]
                rw [specCombineStep_scalar g (getField t n) (JVal.vBool b) rfl]
                exact ihB _ rest hw.2 hb.2
            | vNum m =>
                simp only [specCombineFields, extendFieldsStep]
                rw [specCombineStep_scalar g (getField t n) (JVal.vNum m) rfl]
                exact ihB _ rest hw.2 hb.2
            | vNull =>
                simp only [specCombineFields, extendFieldsStep]
                rw [specCombineStep_scalar g (getField t n) JVal.vNull rfl]
                exact ihB _ rest hw.2 hb.2
      · intro t o hwf hc
        cases o with
        | nil => rfl
        | cons c rest =>
            have hw : wfJ c = true ∧ wfElems rest = true := by
              simpa [wfElems, Bool.and_eq_true] using hwf
            have hb : jcost c ≤ g ∧ jcostElems rest ≤ g := by
              simp [jcostElems] at hc
              omega
            cases c with
            | vUndef => exact absurd hw.1 (by simp [wfJ])
            | vObj cf =>
                simp only [specCombineElems, extendElemsStep]
                rw [ihA (t.headD .vUndef) (JVal.vObj cf) hw.1 hb.1,
                  ihC t.tail rest hw.2 hb.2]
            | vArr ce =>
                simp only [specCombineElems, extendElemsStep]
                rw [ihA (t.headD .vUndef) (JVal.vArr ce) hw.1 hb.1,
                  ihC t.tail rest hw.2 hb.2]
            | vStr s =>
                simp only [specCombineElems, extendElemsStep]
                rw [specCombineStep_scalar g (t.headD .vUndef) (JVal.vStr s) rfl,
                  ihC t.tail rest hw.2 hb.2]
            | vBool b =>
                simp only [specCombineElems, extendElemsStep]
                rw [specCombineStep_scalar g (t.headD .vUndef) (JVal.vBool b) rfl,
                  ihC t.tail rest hw.2 hb.2]
            | vNum m =>
                simp only [specCombineElems, extendElemsStep]
                rw [specCombineStep_scalar g (t.headD .vUndef) (JVal.vNum m) rfl,
                  ihC t.tail rest hw.2 hb.2]
            | vNull =>
                simp only [specCombineElems, extendElemsStep]
                rw [specCombineStep_scalar g (t.headD .vUndef) JVal.vNull rfl,
                  ihC t.tail rest hw.2 hb.2]
      · intro t o hnd hwf hc hdisj
        cases o with
        | nil => simp [extendFieldsStep]
        | cons p rest =>
            obtain ⟨n, c⟩ := p
            have hw : wfJ c = true ∧ wfFields rest = true := by
              simpa [wfFields, Bool.and_eq_true] using hwf
            have hb : jcost c ≤ g ∧ jcostFields rest ≤ g := by
              simp [jcostFields] at hc
              omega
            have hnd' : (∀ p ∈ rest, p.1 ≠ n) ∧ nodupKeysB rest = true := by
              simpa [nodupKeysB, Bool.and_eq_true, List.all_eq_true] using hnd
            have hn : n ∉ keysOf t := hdisj n (by simp [keysOf])
            have hget : getField t n = .vUndef := getField_of_notMem t n hn
            have hdisj' : ∀ x ∈ keysOf rest, x ∉ keysOf (t ++ [(n, c)]) := by
              intro x hx
              simp only [keysOf, List.map_append, List.mem_append, List.map_cons,
                List.map_nil, List.mem_singleton]
              rintro (hxt | hxn)
              · exact hdisj x (by simp [keysOf]; right; simpa [keysOf] using hx) hxt
              · obtain ⟨p, hp, hpx⟩ := List.mem_map.1 hx
                exact hnd'.1 p hp (hpx.trans hxn)
            have hfin : ∀ w, extendFieldsStep g (t ++ [(n, w)]) rest
                = t ++ (n, c) :: rest → extendFieldsStep g (setField t n w) rest
                = t ++ (n, c) :: rest := by
              intro w hw2
              rwa [setField_of_notMem t n _ hn]
            cases c with
            | vUndef => exact absurd hw.1 (by simp [wfJ])
            | vObj cf =>
                simp only [extendFieldsStep]
                rw [hget, ihG _ hw.1 hb.1]
                refine hfin _ ?_
                rw [ihD _ rest hnd'.2 hw.2 hb.2 hdisj']
                simp
            | vArr ce =>
                simp only [extendFieldsStep]
                rw [hget, ihG _ hw.1 hb.1]
                refine hfin _ ?_
                rw [ihD _ rest hnd'.2 hw.2 hb.2 hdisj']
                simp
            | vStr s =>
                simp only [extendFieldsStep]
                refine hfin _ ?_
                rw [ihD _ rest hnd'.2 hw.2 hb.2 hdisj']
                simp
            | vBool b =>
                simp only [extendFieldsStep]
                refine hfin _ ?_
                rw [ihD _ rest hnd'.2 hw.2 hb.2 hdisj']
                simp
            | vNum m =>
                simp only [extendFieldsStep]
                refine hfin _ ?_
                rw [ihD _ rest hnd'.2 hw.2 hb.2 hdisj']
                simp
            | vNull =>
                simp only [extendFieldsStep]
                refine hfin _ ?_
                rw [ihD _ rest hnd'.2 hw.2 hb.2 hdisj']
                simp
      · intro o hwf hc
        cases o with
        | nil => rfl
        | cons c rest =>
            have hw : wfJ c = true ∧ wfElems rest = true := by
              simpa [wfElems, Bool.and_eq_true] using hwf
            have hb : jcost c ≤ g ∧ jcostElems rest ≤ g := by
              simp [jcostElems] at hc
              omega
            cases c with
            | vUndef => exact absurd hw.1 (by simp [wfJ])
            | vObj cf =>
                simp only [extendElemsStep]
                rw [show (([] : List JVal).headD .vUndef) = JVal.vUndef from rfl,
                  ihG _ hw.1 hb.1]
                simpa using ihE rest hw.2 hb.2
            | vArr ce =>
                simp only [extendElemsStep]
                rw [show (([] : List JVal).headD .vUndef) = JVal.vUndef from rfl,
                  ihG _ hw.1 hb.1]
                simpa using ihE rest hw.2 hb.2
            | vStr s =>
                simp only [extendElemsStep]
                simpa using ihE rest hw.2 hb.2
            | vBool b =>
                simp only [extendElemsStep]
                simpa using ihE rest hw.2 hb.2
            | vNum m =>
                simp only [extendElemsStep]
                simpa using ihE rest hw.2 hb.2
            | vNull =>
                simp only [extendElemsStep]
                simpa using ihE rest hw.2 hb.2
      · intro c hwf hc
        cases c with
        | vUndef => simp [wfJ] at hwf
        | vObj cf =>
            have hnd : nodupKeysB cf = true ∧ wfFields cf = true := by
              simpa [wfJ, Bool.and_eq_true] using hwf
            have hcf : jcostFields cf ≤ g := by
              simp [jcost] at hc
              omega
            simp only [extendStep, objFieldsOf]
            rw [ihD [] cf hnd.1 hnd.2 hcf (by simp [keysOf])]
            simp
        | vArr ce =>
            have hwe : wfElems ce = true := by simpa [wfJ] using hwf
            have hce : jcostElems ce ≤ g := by
              simp [jcost] at hc
              omega
            simp only [extendStep, arrElemsOf]
            rw [ihE ce hwe hce]
        | vStr s => rfl
        | vBool b => rfl
        | vNum n => rfl
        | vNull => rfl

/-- At self-sizing fuel: on well-formed overrides, the code's
object/object merge (`extend(true, d, o)`) equals the amended
specification combine. -/
theorem extendCase_eq_specDeepCombine (dF oF : JFields) (hwf : wfJ (.vObj oF) = true) :
    extendCase (.vObj dF) (.vObj oF) = specDeepCombine (.vObj dF) (.vObj oF) := by
  have h := (specExtendPack (jcost (.vObj oF))).1 (.vObj dF) (.vObj oF) hwf le_rfl
  have hj : jcost (.vObj oF) = jcostFields oF + 1 := by
    simp [jcost, Nat.add_comm]
  simp only [specDeepCombine]
  rw [h, hj]
  rfl

/-!
### Claims about `mergeSettings`
-/

/-- Claim C1, counterexample to the claim as stated: with default
`{a: "x"}` and overrides `{a: 1, b: 2}` the types at `a` differ, yet the
merge raises no error at all, leaves `a` unchanged, and still processes
the later key `b` — the claimed type-mismatch failure (and the abort of
later keys) does not happen. -/
theorem mergeSettings_type_mismatch_claim_cex :
    mergeSettings [("a", .vStr "x")] (.vObj [("a", .vNum 1), ("b", .vNum 2)])
      = ([("a", .vStr "x"), ("b", .vNum 2)], none)
    ∧ typeOf (getField [("a", .vStr "x")] "a") ≠ typeOf (.vNum 1) :=
  ⟨rfl, by decide⟩

/-- Claim C1 (corrected): for every key `k` present in the overrides whose
value's type differs from the type of the existing default value at `k`,
`mergeSettings` raises no error and commits no change for `k`: the key is
silently skipped (the `else if`/no-`else` chain at lines 102–130 has no
failure branch for this case) and every later key is still processed —
merging with the mismatched key present equals merging without it. -/
theorem mergeSettings_type_mismatch_skips_key
    (s pre post : JFields) (k : String) (v : JVal)
    (hmm : typeOf (getField s k) ≠ typeOf v)
    (hdef : typeOf (getField s k) ≠ "undefined")
    (hpre : k ∉ keysOf pre) :
    mergeSettings s (.vObj (pre ++ (k, v) :: post))
      = mergeSettings s (.vObj (pre ++ post)) := by
  simp only [mergeSettings, typeOf, keyVals, if_pos]
  rw [mergeList_append, mergeList_append]
  cases h1 : mergeList s pre with
  | mk a oe =>
      cases oe with
      | some e => rfl
      | none =>
          have hk : getField a k = getField s k := by
            have h2 := mergeList_keeps pre s k hpre
            rw [h1] at h2
            exact h2
          simp only [mergeList]
          have hmk : mergeKey a k v = (a, none) := by
            unfold mergeKey
            rw [hk, if_neg hmm, if_neg hdef]
          rw [hmk]

/-- Claim C1, witness: instantiating the corrected statement at the
counterexample input. -/
theorem mergeSettings_type_mismatch_skips_key_witness :
    typeOf (getField [("a", .vStr "x")] "a") ≠ typeOf (.vNum 1)
    ∧ typeOf (getField [("a", .vStr "x")] "a") ≠ "undefined"
    ∧ "a" ∉ keysOf ([] : JFields)
    ∧ mergeSettings [("a", .vStr "x")] (.vObj ([] ++ ("a", .vNum 1) :: [("b", .vNum 2)]))
        = mergeSettings [("a", .vStr "x")] (.vObj ([] ++ [("b", .vNum 2)])) :=
  ⟨by decide, by decide, by simp [keysOf],
    mergeSettings_type_mismatch_skips_key [("a", .vStr "x")] [] [("b", .vNum 2)]
      "a" (.vNum 1) (by decide) (by decide) (by simp [keysOf])⟩

/-- Claim C6 (confirmed): for every key where both the default value and
the override value are arrays, the merged result at that key is exactly
the default array followed by the override array (`concat`, line 109),
order and duplicates preserved. -/
theorem mergeSettings_array_concat
    (s pre post : JFields) (k : String) (ds os : List JVal) (r : JFields)
    (hd : getField s k = .vArr ds)
    (hpre : k ∉ keysOf pre) (hpost : k ∉ keysOf post)
    (hok : mergeSettings s (.vObj (pre ++ (k, .vArr os) :: post)) = (r, none)) :
    getField r k = .vArr (ds ++ os) := by
  simp only [mergeSettings, typeOf, keyVals, if_pos] at hok
  rw [mergeList_append] at hok
  cases h1 : mergeList s pre with
  | mk a oe =>
      rw [h1] at hok
      cases oe with
      | some e => simp at hok
      | none =>
          have hk : getField a k = .vArr ds := by
            have h2 := mergeList_keeps pre s k hpre
            rw [h1] at h2
            rw [h2, hd]
          simp only [mergeList] at hok
          have hmk : mergeKey a k (.vArr os)
              = (setField a k (.vArr (ds ++ os)), none) := by
            unfold mergeKey
            rw [hk]
            simp [typeOf, isArray, arrElemsOf]
          rw [hmk] at hok
          have hok' : mergeList (setField a k (.vArr (ds ++ os))) post = (r, none) := hok
          have h3 := mergeList_keeps post (setField a k (.vArr (ds ++ os))) k hpost
          rw [hok'] at h3
          simp only at h3
          rw [h3, getField_setField_self]

/-- Claim C6, witness: `[1] ++ [1, 2]` with the duplicate `1` kept. -/
theorem mergeSettings_array_concat_witness :
    getField [("xs", .vArr [.vNum 1])] "xs" = .vArr [.vNum 1]
    ∧ "xs" ∉ keysOf ([] : JFields)
    ∧ mergeSettings [("xs", .vArr [.vNum 1])]
        (.vObj ([] ++ ("xs", .vArr [.vNum 1, .vNum 2]) :: []))
        = ([("xs", .vArr [.vNum 1, .vNum 1, .vNum 2])], none)
    ∧ getField [("xs", .vArr [.vNum 1, .vNum 1, .vNum 2])] "xs"
        = .vArr ([.vNum 1] ++ [.vNum 1, .vNum 2]) :=
  ⟨rfl, by simp [keysOf], rfl,
    mergeSettings_array_concat [("xs", .vArr [.vNum 1])] [] [] "xs"
      [.vNum 1] [.vNum 1, .vNum 2] [("xs", .vArr [.vNum 1, .vNum 1, .vNum 2])]
      rfl (by simp [keysOf]) (by simp [keysOf]) rfl⟩

/-- Claim C7, counterexample to the claim as stated: with default
`{opts: {xs: ["a","b"]}}` and override `{opts: {xs: ["x"]}}` the values at
`opts` are both non-array mappings, but the code merges the inner arrays
element-wise by index (`["x","b"]`) instead of letting the override win at
the leaf (`["x"]`) as the claim's deep-combine rule demands. -/
theorem mergeSettings_nested_array_claim_cex :
    (mergeSettings [("opts", .vObj [("xs", .vArr [.vStr "a", .vStr "b"])])]
        (.vObj [("opts", .vObj [("xs", .vArr [.vStr "x"])])])).1
      = [("opts", .vObj [("xs", .vArr [.vStr "x", .vStr "b"])])]
    ∧ claimDeepCombine (.vObj [("xs", .vArr [.vStr "a", .vStr "b"])])
        (.vObj [("xs", .vArr [.vStr "x"])])
      = .vObj [("xs", .vArr [.vStr "x"])]
    ∧ (JVal.vObj [("xs", .vArr [.vStr "x", .vStr "b"])]
        ≠ .vObj [("xs", .vArr [.vStr "x"])]) := by
  refine ⟨rfl, rfl, fun h => ?_⟩
  simp at h

/-- Claim C7 (corrected): for every key where both the default and the
override value are non-array mappings (the override well-formed: no
`undefined` members, no duplicate keys), the merged result at that key is
their recursive deep combine — keys only in the default preserved, keys
only in the override added, keys in both combined by this same rule,
two arrays merged element-wise by index (the override's element combining
with the default's element at the same index, longer default tails
preserved), and the override winning outright in every other pairing —
as captured by `specDeepCombine`. -/
theorem mergeSettings_object_key_deep_combine
    (s pre post : JFields) (k : String) (dF oF : JFields) (r : JFields)
    (hd : getField s k = .vObj dF)
    (hwf : wfJ (.vObj oF) = true)
    (hpre : k ∉ keysOf pre) (hpost : k ∉ keysOf post)
    (hok : mergeSettings s (.vObj (pre ++ (k, .vObj oF) :: post)) = (r, none)) :
    getField r k = specDeepCombine (.vObj dF) (.vObj oF) := by
  simp only [mergeSettings, typeOf, keyVals, if_pos] at hok
  rw [mergeList_append] at hok
  cases h1 : mergeList s pre with
  | mk a oe =>
      rw [h1] at hok
      cases oe with
      | some e => simp at hok
      | none =>
          have hk : getField a k = .vObj dF := by
            have h2 := mergeList_keeps pre s k hpre
            rw [h1] at h2
            rw [h2, hd]
          simp only [mergeList] at hok
          have hmk : mergeKey a k (.vObj oF)
              = (setField a k (extendCase (.vObj dF) (.vObj oF)), none) := by
            unfold mergeKey
            rw [hk]
            simp [typeOf, isArray]
          rw [hmk] at hok
          have hok' : mergeList (setField a k (extendCase (.vObj dF) (.vObj oF))) post
              = (r, none) := hok
          have h3 := mergeList_keeps post
            (setField a k (extendCase (.vObj dF) (.vObj oF))) k hpost
          rw [hok'] at h3
          simp only at h3
          rw [h3, getField_setField_self, extendCase_eq_specDeepCombine _ _ hwf]

/-- Claim C7, witness: a one-key deep combine, including the element-wise
array case of the counterexample. -/
theorem mergeSettings_object_key_deep_combine_witness :
    getField [("opts", .vObj [("a", .vNum 1), ("xs", .vArr [.vStr "a", .vStr "b"])])] "opts"
      = .vObj [("a", .vNum 1), ("xs", .vArr [.vStr "a", .vStr "b"])]
    ∧ wfJ (.vObj [("xs", .vArr [.vStr "x"]), ("b", .vNum 2)]) = true
    ∧ "opts" ∉ keysOf ([] : JFields)
    ∧ getField (mergeSettings
        [("opts", .vObj [("a", .vNum 1), ("xs", .vArr [.vStr "a", .vStr "b"])])]
        (.vObj ([] ++ ("opts", .vObj [("xs", .vArr [.vStr "x"]), ("b", .vNum 2)]) :: []))).1 "opts"
      = specDeepCombine (.vObj [("a", .vNum 1), ("xs", .vArr [.vStr "a", .vStr "b"])])
          (.vObj [("xs", .vArr [.vStr "x"]), ("b", .vNum 2)]) :=
  ⟨rfl, by decide, by simp [keysOf],
    mergeSettings_object_key_deep_combine
      [("opts", .vObj [("a", .vNum 1), ("xs", .vArr [.vStr "a", .vStr "b"])])] [] []
      "opts" [("a", .vNum 1), ("xs", .vArr [.vStr "a", .vStr "b"])]
      [("xs", .vArr [.vStr "x"]), ("b", .vNum 2)] _
      rfl (by decide) (by simp [keysOf]) (by simp [keysOf]) rfl⟩

/-- Claim C8 (confirmed): for every key where the default value and the
override value both have type `"object"` but exactly one of the two is an
array, `mergeSettings` throws the shape-mismatch `Error` naming that key
(line 117) instead of merging or replacing; the loop aborts with the
settings as already accumulated. -/
theorem mergeSettings_array_object_mismatch_error
    (s pre post : JFields) (k : String) (v : JVal) (acc : JFields)
    (htd : typeOf (getField s k) = "object") (htv : typeOf v = "object")
    (hx : isArray (getField s k) ≠ isArray v)
    (hpre : k ∉ keysOf pre)
    (hclean : mergeList s pre = (acc, none)) :
    mergeSettings s (.vObj (pre ++ (k, v) :: post))
      = (acc, some (.err (mismatchMsg k))) := by
  simp only [mergeSettings, typeOf, keyVals, if_pos]
  rw [mergeList_append, hclean]
  have hk : getField acc k = getField s k := by
    have h2 := mergeList_keeps pre s k hpre
    rw [hclean] at h2
    exact h2
  simp only [mergeList]
  have hmk : mergeKey acc k v = (acc, some (.err (mismatchMsg k))) := by
    unfold mergeKey
    rw [hk, if_pos (htd.trans htv.symm), if_pos htv]
    have ha : ¬((isArray (getField s k) && isArray v) = true) := by
      cases hb1 : isArray (getField s k) <;> cases hb2 : isArray v <;> simp_all
    rw [if_neg ha]
    have hb : ¬((!isArray (getField s k) && !isArray v) = true) := by
      cases hb1 : isArray (getField s k) <;> cases hb2 : isArray v <;> simp_all
    rw [if_neg hb]
  rw [hmk]

/-- Claim C8, witness: default `{xs: []}` (array) against override
`{xs: {}}` (plain object). -/
theorem mergeSettings_array_object_mismatch_error_witness :
    typeOf (getField [("xs", .vArr [])] "xs") = "object"
    ∧ typeOf (.vObj []) = "object"
    ∧ isArray (getField [("xs", .vArr [])] "xs") ≠ isArray (.vObj [])
    ∧ mergeList [("xs", .vArr [])] [] = ([("xs", .vArr [])], none)
    ∧ mergeSettings [("xs", .vArr [])] (.vObj ([] ++ ("xs", .vObj []) :: []))
        = ([("xs", .vArr [])], some (.err (mismatchMsg "xs"))) :=
  ⟨by decide, by decide, by decide, rfl,
    mergeSettings_array_object_mismatch_error [("xs", .vArr [])] [] [] "xs"
      (.vObj []) [("xs", .vArr [])] (by decide) (by decide) (by decide)
      (by simp [keysOf]) rfl⟩

/-- Claim C9, counterexample to the claim as stated: an array is a
non-mapping overrides argument, yet `typeof [] === 'object'` lets it
through the guard — `mergeSettings` accepts it without any error (its
index/value pairs are simply iterated as keys), against the claimed
unconditional invalid-settings failure. -/
theorem mergeSettings_array_overrides_accepted_cex :
    mergeSettings [("a", .vStr "x")] (.vArr []) = ([("a", .vStr "x")], none)
    ∧ isArray (.vArr []) = true :=
  ⟨rfl, rfl⟩

/-- Claim C9 (corrected): an overrides argument that is a string, a
number or a boolean (`typeof` neither `"object"` nor `"undefined"`) makes
`mergeSettings` throw the invalid-settings `Error` before processing any
key, leaving the settings unchanged.  The other non-mappings escape that
error: an array passes the `typeof` guard and is merged as an index-keyed
mapping, `null` passes the guard and fails with a `TypeError` raised by
`Object.keys(null)` instead, and an `undefined` argument is replaced by
`{}` by the default parameter (line 90), so the merge succeeds without
touching the settings. -/
theorem mergeSettings_nonobject_rejected (s : JFields) (v : JVal)
    (h : typeOf v ≠ "object") (hu : typeOf v ≠ "undefined") :
    mergeSettings s v = (s, some (.err invalidSettingsMsg))
    ∧ mergeSettings s .vNull
      = (s, some (.typeErr "Cannot convert undefined or null to object"))
    ∧ mergeSettings s .vUndef = (s, none) := by
  refine ⟨?_, rfl, rfl⟩
  cases v with
  | vStr s' => rfl
  | vBool b => rfl
  | vNum n => rfl
  | vUndef => exact absurd rfl hu
  | vNull => exact absurd rfl h
  | vArr es => exact absurd rfl h
  | vObj fs => exact absurd rfl h

/-- Claim C9, witness: the string overrides argument
`"not an object"`. -/
theorem mergeSettings_nonobject_rejected_witness :
    typeOf (.vStr "not an object") ≠ "object"
    ∧ typeOf (.vStr "not an object") ≠ "undefined"
    ∧ mergeSettings [("a", .vStr "x")] (.vStr "not an object")
        = ([("a", .vStr "x")], some (.err invalidSettingsMsg)) :=
  ⟨by decide, by decide,
    (mergeSettings_nonobject_rejected [("a", .vStr "x")]
      (.vStr "not an object") (by decide) (by decide)).1⟩

/-!
### Claims about the generated logging methods
-/

/-- Claim C4, counterexample to the claim as stated: with
`throws === true`, a truthy-but-not-`true` `allowForceNoThrow` (`1`) and a
truthy-but-not-`true` `options.force` (`1`), the claim's strict condition
`NOT (allowForceNoThrow === true AND force === true)` holds, so the claim
demands a raised failure — but the code's truthiness test at line 194
suppresses it: nothing is thrown.  Moreover, with a valid color the raised
payload is not the originally passed arguments: line 177 has already
colorized the argument array in place. -/
theorem logCall_strict_escalation_claim_cex :
    (logCall "fatal" [("throws", .vBool true)] [("allowForceNoThrow", .vNum 1)]
        [("force", .vNum 1)] [.vStr "x"] "TS").output.isSome = true
    ∧ getField [("throws", .vBool true)] "throws" = .vBool true
    ∧ getField [("allowForceNoThrow", .vNum 1)] "allowForceNoThrow" ≠ .vBool true
    ∧ getField [("force", .vNum 1)] "force" ≠ .vBool true
    ∧ (logCall "fatal" [("throws", .vBool true)] [("allowForceNoThrow", .vNum 1)]
        [("force", .vNum 1)] [.vStr "x"] "TS").thrown = none
    ∧ (logCall "fatal" [("throws", .vBool true), ("color", .vStr "red")] [] []
        [.vStr "x"] "TS").thrown = some [.vStr (applyColor "red" "x")]
    ∧ [JVal.vStr (applyColor "red" "x")] ≠ [JVal.vStr "x"] := by
  refine ⟨rfl, rfl, ?_, ?_, rfl, rfl, ?_⟩ <;> simp [getField, applyColor]

/-- Claim C4 (corrected): a generated log method raises a failure if and
only if it produced output AND its config has `throws === true` AND NOT
(`settings.allowForceNoThrow` is truthy AND `host.options.force` is
truthy); when raised, the failure's payload is the passed argument array
as colorization left it (line 177 colorizes its string elements in place,
so with a valid color the payload is the colorized arguments, and without
one it is the original arguments unchanged), and a call suppressed by the
visibility gate never raises even when `throws` is set. -/
theorem logCall_escalation_truthy (method : String) (cfg settings options : JFields)
    (args : List JVal) (ts : String) :
    (logCall method cfg settings options args ts).thrown
      = (if ((logCall method cfg settings options args ts).output.isSome
            && isTrueJ (getField cfg "throws")
            && !(truthy (getField settings "allowForceNoThrow")
                  && truthy (getField options "force"))) = true
         then some (colorizeList args (cfgColor cfg)) else none) := by
  unfold logCall
  by_cases hg : ((!truthy (getField cfg "verbose") || truthy (getField options "verbose"))
      && !truthy (getField options "quiet")) = true
  · rw [if_pos hg]
    simp
  · rw [if_neg hg]
    simp

/-- Claim C5, counterexample to the claim as stated: a config with no
`verbose` member and options with no `verbose` member satisfy neither
`config.verbose === false` nor `options.verbose === true`, so the claim's
gate says the call produces no output — but the code's `!methodConfig.verbose`
test at line 164 treats the absent flag as falsy, and output is
produced. -/
theorem logCall_strict_gate_claim_cex :
    (logCall "log" [] [] [] [.vStr "hi"] "TS").output = some [.vStr "hi"]
    ∧ getField ([] : JFields) "verbose" ≠ .vBool false
    ∧ getField ([] : JFields) "verbose" ≠ .vBool true := by
  refine ⟨rfl, ?_, ?_⟩ <;> simp [getField]

/-- Claim C5 (corrected): a call of a generated log method produces output
exactly when (`config.verbose` is falsy OR `host.options.verbose` is
truthy) AND `host.options.quiet` is falsy; when the gate fails the call is
a silent no-op (no output, no failure); and when it passes with
`config.prefix` a non-blank string, `config.stamp` truthy and
`config.color` a valid color name, the emitted sequence is the colorized
timestamp element, then the colorized prefix element, then the arguments
with each string element colorized — so the `warn('disk low')` scenario
yields exactly the three elements timestamp, `"WARN"`, `"disk low"` in
that order. -/
theorem logCall_gate_and_output_shape (method : String) (cfg settings options : JFields)
    (args : List JVal) (ts : String) :
    ((logCall method cfg settings options args ts).output.isSome
        = ((!truthy (getField cfg "verbose") || truthy (getField options "verbose"))
            && !truthy (getField options "quiet")))
    ∧ (((!truthy (getField cfg "verbose") || truthy (getField options "verbose"))
          && !truthy (getField options "quiet")) = false
        → (logCall method cfg settings options args ts).output = none
          ∧ (logCall method cfg settings options args ts).thrown = none)
    ∧ (∀ p c, getField cfg "prefix" = .vStr p → isBlankStr p = false
        → truthy (getField cfg "stamp") = true
        → getField cfg "color" = .vStr c
        → colorNames.contains c = true
        → isBlankStr c = false
        → ((!truthy (getField cfg "verbose") || truthy (getField options "verbose"))
            && !truthy (getField options "quiet")) = true
        → (logCall method cfg settings options args ts).output
            = some (.vStr (applyColor c ("[" ++ ts ++ "]"))
                :: .vStr (applyColor c p)
                :: colorizeList args c)) := by
  refine ⟨?_, ?_, ?_⟩
  · unfold logCall
    by_cases hg : ((!truthy (getField cfg "verbose") || truthy (getField options "verbose"))
        && !truthy (getField options "quiet")) = true
    · rw [if_pos hg]
      simp [hg]
    · rw [if_neg hg]
      simp
      simpa using hg
  · intro hg
    unfold logCall
    rw [if_neg (by simp [hg])]
    exact ⟨rfl, rfl⟩
  · intro p c hp hpb hst hcol hcn hcb hg
    unfold logCall
    rw [if_pos hg]
    have hmem : c ∈ colorNames := by simpa using hcn
    have hcc : cfgColor cfg = c := by
      simp [cfgColor, hcol, hmem]
    simp only [hp, hst, hcc, if_pos]
    simp [colorizeList, hcb, hcn, hmem, hpb]

/-- Claim C5, witness: the `warn('disk low')` scenario with
`{verbose: true, prefix: 'WARN', color: 'yellow', stamp: true}`,
`options.verbose = true`, `options.quiet` unset — three elements, in the
order timestamp, prefix, argument. -/
theorem logCall_gate_and_output_shape_witness :
    getField [("verbose", .vBool true), ("prefix", .vStr "WARN"),
        ("color", .vStr "yellow"), ("stamp", .vBool true)] "prefix" = .vStr "WARN"
    ∧ isBlankStr "WARN" = false
    ∧ colorNames.contains "yellow" = true
    ∧ (logCall "warn"
        [("verbose", .vBool true), ("prefix", .vStr "WARN"),
         ("color", .vStr "yellow"), ("stamp", .vBool true)]
        [] [("verbose", .vBool true)] [.vStr "disk low"] "TS").output
      = some (.vStr (applyColor "yellow" "[TS]")
          :: .vStr (applyColor "yellow" "WARN")
          :: colorizeList [.vStr "disk low"] "yellow")
    ∧ colorizeList [.vStr "disk low"] "yellow" = [.vStr (applyColor "yellow" "disk low")] :=
  ⟨rfl, rfl, rfl,
    (logCall_gate_and_output_shape "warn"
      [("verbose", .vBool true), ("prefix", .vStr "WARN"),
       ("color", .vStr "yellow"), ("stamp", .vBool true)]
      [] [("verbose", .vBool true)] [.vStr "disk low"] "TS").2.2
      "WARN" "yellow" rfl rfl rfl rfl rfl rfl rfl,
    rfl⟩

/-!
### Claim about log-method generation
-/

/-- The names in `pre` are pairwise fresh relative to `props` and to each
other, in iteration order — i.e. generating them one after another hits no
collision. -/
def freshChain (props : List String) : JFields → Bool
  | [] => true
  | (n, _) :: rest => !props.contains n && freshChain (props ++ [n]) rest

/-- The collision check of `enableLogging`, at the loop level: walking
`pre ++ (m, c) :: post` with every name of `pre` fresh and `m` already
present (among the host's properties or the methods just generated), the
loop defines exactly the methods of `pre`, then throws the collision
error naming `m`, never reaching `post`. -/
theorem enableLoggingList_first_collision
    (pre : JFields) (props : List String) (post : JFields) (m : String) (c : JVal)
    (hfresh : freshChain props pre = true)
    (hm : (props ++ keysOf pre).contains m = true) :
    enableLoggingList props (pre ++ (m, c) :: post)
      = (props ++ keysOf pre, some (.err (collisionMsg m))) := by
  induction pre generalizing props with
  | nil =>
      simp only [keysOf, List.map_nil, List.append_nil] at hm ⊢
      simp only [List.nil_append, enableLoggingList]
      rw [if_pos hm]
  | cons p rest ih =>
      obtain ⟨n, c0⟩ := p
      have hf : (!props.contains n) = true ∧ freshChain (props ++ [n]) rest = true := by
        simpa [freshChain, Bool.and_eq_true] using hfresh
      simp only [List.cons_append, enableLoggingList]
      rw [if_neg (by simpa using hf.1)]
      have hm' : ((props ++ [n]) ++ keysOf rest).contains m = true := by
        simpa [keysOf, List.append_assoc] using hm
      have h2 := ih (props ++ [n]) hf.2 hm'
      simp only [List.append_eq]
      rw [h2]
      simp [keysOf, List.append_assoc]

/-- Claim C10 (confirmed): a logging configuration containing a method
name that already exists as a property on the host object fails
generation with the collision error naming that exact method; the check
runs per method at generation time, so the first collision in iteration
order aborts generation of all later methods while the methods generated
before it remain defined. -/
theorem enableLogging_first_collision
    (props : List String) (pre post : JFields) (m : String) (c : JVal)
    (hfresh : freshChain props pre = true)
    (hm : (props ++ keysOf pre).contains m = true) :
    enableLogging props (.vObj (pre ++ (m, c) :: post))
      = (props ++ keysOf pre, some (.err (collisionMsg m))) := by
  simp only [enableLogging, typeOf, keyVals, if_pos]
  exact enableLoggingList_first_collision pre props post m c hfresh hm

/-- Claim C10, witness: `{info: {}, options: {}, warn: {}}` against the
initial host properties — `info` is generated, the collision error names
`options`, and `warn` is never reached. -/
theorem enableLogging_first_collision_witness :
    freshChain hostProps0 [("info", .vObj [])] = true
    ∧ (hostProps0 ++ keysOf [("info", .vObj [])]).contains "options" = true
    ∧ enableLogging hostProps0
        (.vObj ([("info", .vObj [])] ++ ("options", .vObj []) :: [("warn", .vObj [])]))
      = (hostProps0 ++ ["info"], some (.err (collisionMsg "options"))) :=
  ⟨rfl, rfl,
    enableLogging_first_collision hostProps0 [("info", .vObj [])] [("warn", .vObj [])]
      "options" (.vObj []) rfl rfl⟩

/-!
### Claim about the constructor's failure path
-/

/-- Claim C2 (the code violates it): constructing with the non-object
overrides argument `"not an object"` makes `mergeSettings` throw before
`enableLogging` ever runs, so no `debug` method exists on the host; the
catch block reports the error's message through `console.error`, but then
line 74 calls `this.debug('Caught Error:', e)` — a `TypeError`
(`this.debug is not a function`) thrown inside the catch block escapes the
constructor uncaught.  `showHelp` is never reached and the process does
not exit with code 0, whatever the default settings document, the
argument parser and the clock return. -/
theorem construct_nonobject_overrides_crashes (defaults : JFields)
    (parse : JVal → Except JsError JFields) (ts : String) :
    construct defaults (.vStr "not an object") parse ts
      = { reported := [[.vStr invalidSettingsMsg]],
          outcome := .crashed "TypeError: this.debug is not a function" } := rfl

/-!
### Claim about the shared default settings document
-/

/-- Modelled from the spec: a minimal image of the cached `settings.json`
document (the default settings source, not part of `lib/`) on the heap —
the document at address 0, holding the nested `logging` sub-tree the spec
guarantees at address 1 (empty here, standing for any pristine
sub-tree). -/
def defaultsDemoStore : Store := [[("logging", .hRef 1)], []]

/-- The heap after a first construction that merges the override
`{logging: {hacked: true}}`. -/
def firstConstructionStore : Store :=
  (constructSettingsH defaultsDemoStore 0
    (.vObj [("logging", .vObj [("hacked", .vBool true)])])).1

/-- A second construction, with no overrides, run after the first. -/
def secondConstruction : Store × Nat × Option JsError :=
  constructSettingsH firstConstructionStore 0 (.vObj [])

/-- Claim C3 (the code violates it): `Object.assign({}, DEFAULT_SETTINGS)`
copies only the top level, so the copy's `logging` field still references
the shared default sub-object, and `extend(true, this.settings.logging,
...)` mutates that shared object in place.  Concretely: the pristine
defaults' logging object has no `hacked` member; after a first
construction merging `{logging: {hacked: true}}`, a second construction's
settings copy still aliases the same logging object (address 1), which now
carries the first caller's override — the first construction's overrides
are observable in the defaults seen by the second. -/
theorem defaults_mutated_through_shallow_copy :
    getFieldH (storeGet defaultsDemoStore 1) "hacked" = .hUndef
    ∧ (constructSettingsH defaultsDemoStore 0
        (.vObj [("logging", .vObj [("hacked", .vBool true)])])).2.2 = none
    ∧ getFieldH (storeGet firstConstructionStore 0) "logging" = .hRef 1
    ∧ getFieldH (storeGet secondConstruction.1 secondConstruction.2.1) "logging" = .hRef 1
    ∧ getFieldH (storeGet secondConstruction.1 1) "hacked" = .hBool true :=
  ⟨rfl, rfl, rfl, rfl, rfl⟩
